import Mathlib

/-!
Verification of the parametric canonicalization core of cvxpygen
(function generate_code in cvxpygen.py): construction of sparse affine
maps from the flattened parameter vector (with an appended constant) to
the canonical data arrays of the OSQP (quadratic-program) and ECOS
(conic) solver layouts, the parameter dependency analysis, the
compressed sparse-column encodings, and the filesystem effect skeleton
of the generation pass.
-/

namespace Cvxpygen

/-- Stored entries of one row of a sparse matrix, as (column, value) pairs.
This models one row of a scipy sparse matrix: the stored (structural)
entries are exactly the listed pairs. -/
abbrev SpRow : Type := List (ℕ × ℚ)

/-- Dot product of a stored row with a dense vector, as performed by the
matrix-vector product mapping @ user_p_flat. -/
def SpRow.dot (r : SpRow) (v : ℕ → ℚ) : ℚ :=
  (r.map (fun e => e.2 * v e.1)).sum

/-- Negate all stored values of a row (the unary minus on a scipy matrix). -/
def SpRow.neg (r : SpRow) : SpRow := r.map (fun e => (e.1, -e.2))

/-- Number of stored entries of a row with column in the interval [a, b). -/
def SpRow.nnzIn (r : SpRow) (a b : ℕ) : ℕ :=
  (r.filter (fun e => decide (a ≤ e.1) && decide (e.1 < b))).length

/-- Sparse matrix as a list of stored rows plus a column count. -/
structure SpMat where
  rows : List SpRow
  ncols : ℕ

/-- Matrix-vector product: the expression mapping @ user_p_flat. -/
def SpMat.mulVec (M : SpMat) (v : ℕ → ℚ) : List ℚ :=
  M.rows.map (fun r => SpRow.dot r v)

/-- Number of stored entries with column in [a, b): the scipy expression
mapping[:, a:b].nnz used for the dependency tests. -/
def SpMat.nnzIn (M : SpMat) (a b : ℕ) : ℕ :=
  (M.rows.map (fun r => r.nnzIn a b)).sum

/-- There is a stored (structurally non-zero) entry with column in [a, b). -/
def SpMat.hasEntryIn (M : SpMat) (a b : ℕ) : Prop :=
  ∃ r ∈ M.rows, ∃ e ∈ r, a ≤ e.1 ∧ e.1 < b

/-- canon_p_to_changes for one canonical array: mapping[:, :-1].nnz > 0,
the map restricted to the non-constant columns has a stored entry. -/
def changes (M : SpMat) : Bool := decide (0 < M.nnzIn 0 (M.ncols - 1))

/-- The adjacency test for user parameter j, given the values of the
user_p_id_to_col table in id order (with the trailing sentinel entry):
mapping[:, col_j : col_(j+1)].nnz > 0. -/
def adjacency (M : SpMat) (pcols : List ℕ) (j : ℕ) : Bool :=
  decide (0 < M.nnzIn (pcols.getD j 0) (pcols.getD (j+1) 0))

/-- user_p_to_canon_outdated for one user parameter: the canonical ids
whose adjacency entry for that parameter is set. -/
def outdated (maps : List SpMat) (ids : List String) (pcols : List ℕ) (j : ℕ) : List String :=
  ((List.range maps.length).filter (fun i => adjacency (maps.getD i ⟨[], 0⟩) pcols j)).map
    (fun i => ids.getD i "")

/-- Scatter selected reduced rows into an accumulator of n empty rows at
their structural row indices: the loop assigning
mapping_to_dense[indices[i_data], :] = mapping_to_sparse[i_data, :]. -/
def scatterRows (n : ℕ) (pairs : List (ℕ × SpRow)) : List SpRow :=
  pairs.foldl (fun acc p => acc.set p.1 p.2) (List.replicate n [])

theorem getD_set_self {α : Type} (l : List α) (i : ℕ) (a d : α) (h : i < l.length) :
    (l.set i a).getD i d = a := by
  induction l generalizing i with
  | nil => simp at h
  | cons x xs ih =>
    cases i with
    | zero => rfl
    | succ n => simpa [List.getD_cons_succ] using ih n (by simpa using h)

theorem getD_set_ne {α : Type} (l : List α) (i j : ℕ) (a d : α) (h : i ≠ j) :
    (l.set i a).getD j d = l.getD j d := by
  induction l generalizing i j with
  | nil => simp [List.set]
  | cons x xs ih =>
    cases i with
    | zero =>
      cases j with
      | zero => exact absurd rfl h
      | succ m => simp [List.set, List.getD_cons_succ]
    | succ n =>
      cases j with
      | zero => simp [List.set]
      | succ m =>
        simp only [List.set, List.getD_cons_succ]
        exact ih n m (fun hnm => h (by rw [hnm]))

theorem foldl_set_length (ps : List (ℕ × SpRow)) (acc : List SpRow) :
    (ps.foldl (fun a p => a.set p.1 p.2) acc).length = acc.length := by
  induction ps generalizing acc with
  | nil => rfl
  | cons p ps ih => simpa [List.foldl_cons] using ih (acc.set p.1 p.2)

theorem scatterRows_length (n : ℕ) (pairs : List (ℕ × SpRow)) :
    (scatterRows n pairs).length = n := by
  simpa [scatterRows] using foldl_set_length pairs (List.replicate n [])

theorem foldl_set_getD_not_mem (ps : List (ℕ × SpRow)) (acc : List SpRow) (r : ℕ)
    (h : ∀ p ∈ ps, p.1 ≠ r) :
    (ps.foldl (fun a p => a.set p.1 p.2) acc).getD r [] = acc.getD r [] := by
  induction ps generalizing acc with
  | nil => rfl
  | cons p ps ih =>
    rw [List.foldl_cons, ih (acc.set p.1 p.2) (fun q hq => h q (List.mem_cons_of_mem p hq))]
    exact getD_set_ne acc p.1 r p.2 [] (h p (List.mem_cons_self p ps))

theorem foldl_set_getD_mem (ps : List (ℕ × SpRow)) (acc : List SpRow) (i : ℕ) (row : SpRow)
    (hmem : (i, row) ∈ ps) (hnd : (ps.map Prod.fst).Nodup) (hi : i < acc.length) :
    (ps.foldl (fun a p => a.set p.1 p.2) acc).getD i [] = row := by
  induction ps generalizing acc with
  | nil => simp at hmem
  | cons p ps ih =>
    rcases List.mem_cons.mp hmem with hhead | htail
    · subst hhead
      rw [List.foldl_cons]
      have hnotin : ∀ q ∈ ps, q.1 ≠ i := by
        intro q hq hqi
        have : i ∈ ps.map Prod.fst := hqi ▸ List.mem_map_of_mem Prod.fst hq
        exact (List.nodup_cons.mp hnd).1 this
      rw [foldl_set_getD_not_mem ps (acc.set i row) i hnotin]
      exact getD_set_self acc i row [] hi
    · rw [List.foldl_cons]
      exact ih (acc.set p.1 p.2) htail (List.nodup_cons.mp hnd).2 (by simpa using hi)

/-- Rows not targeted by any scattered pair stay empty. -/
theorem scatterRows_getD_of_not_target (n : ℕ) (pairs : List (ℕ × SpRow)) (r : ℕ)
    (h : ∀ p ∈ pairs, p.1 ≠ r) :
    (scatterRows n pairs).getD r [] = [] := by
  have := foldl_set_getD_not_mem pairs (List.replicate n []) r h
  simpa [scatterRows] using this

/-- With pairwise distinct in-bounds target indices, each scattered pair
lands at its own structural row index. -/
theorem scatterRows_getD_of_mem (n : ℕ) (pairs : List (ℕ × SpRow)) (i : ℕ) (row : SpRow)
    (hmem : (i, row) ∈ pairs) (hnd : (pairs.map Prod.fst).Nodup) (hi : i < n) :
    (scatterRows n pairs).getD i [] = row := by
  have := foldl_set_getD_mem pairs (List.replicate n []) i row hmem hnd (by simpa using hi)
  simpa [scatterRows] using this

/-! ### OSQP (quadratic-program) layout

Structural input supplied by the upstream reduction: the reduced sparse
coefficient matrices (one stored row per structural non-zero of the
stacked problem data, with total + 1 columns, the last column being the
constant offset), the compressed sparse-column index data of the stacked
matrices, and the parameter-id to column-offset table p_cols (the values
of user_p_id_to_col in id order, with the trailing sentinel entry equal
to the total parameter size). -/

structure OSQPInput where
  n_var : ℕ
  n_eq : ℕ
  n_ineq : ℕ
  total : ℕ
  reduced_P : List SpRow
  reduced_A : List SpRow
  qmat : List SpRow
  indices_P : List ℕ
  indptr_P : List ℕ
  indices_Alu : List ℕ
  indptr_Alu : List ℕ
  p_cols : List ℕ

/-- n_data_Alu = len(indices_Alu). -/
def nDataAlu (inp : OSQPInput) : ℕ := inp.indices_Alu.length

/-- n_data_lu = indptr_Alu[-1] - indptr_Alu[-2]. -/
def nDataLu (inp : OSQPInput) : ℕ :=
  inp.indptr_Alu.getD (inp.indptr_Alu.length - 1) 0 -
    inp.indptr_Alu.getD (inp.indptr_Alu.length - 2) 0

/-- n_data_A = n_data_Alu - n_data_lu. -/
def nDataA (inp : OSQPInput) : ℕ := nDataAlu inp - nDataLu inp

/-- Affine map for P: mapping = p_prob.reduced_P. -/
def mappingP (inp : OSQPInput) : SpMat := ⟨inp.reduced_P, inp.total + 1⟩

/-- Affine map for q: mapping = p_prob.q without its last row. -/
def mappingQ (inp : OSQPInput) : SpMat := ⟨inp.qmat.dropLast, inp.total + 1⟩

/-- Affine map for d: mapping = the last row of p_prob.q. -/
def mappingD (inp : OSQPInput) : SpMat := ⟨[inp.qmat.getLastD []], inp.total + 1⟩

/-- Affine map for A: mapping = p_prob.reduced_A restricted to the first
n_data_A data rows. -/
def mappingA (inp : OSQPInput) : SpMat := ⟨inp.reduced_A.take (nDataA inp), inp.total + 1⟩

/-- mapping_rows for l: positions of indices_Alu that are smaller than
n_eq (mapping_rows_eq), intersected with the bound block positions
at least n_data_A. -/
def mappingRowsL (inp : OSQPInput) : List ℕ :=
  ((List.range (nDataAlu inp)).filter
      (fun d => decide (inp.indices_Alu.getD d 0 < inp.n_eq))).filter
    (fun d => decide (nDataA inp ≤ d))

/-- mapping_rows for u: arange(n_data_A, n_data_Alu). -/
def mappingRowsU (inp : OSQPInput) : List ℕ :=
  List.range' (nDataA inp) (nDataAlu inp - nDataA inp)

/-- The scatter work list for l and u: each selected data row d of
-reduced_A paired with its structural row index indices_Alu[d]. -/
def luPairs (inp : OSQPInput) (sel : List ℕ) : List (ℕ × SpRow) :=
  sel.map (fun d => (inp.indices_Alu.getD d 0, SpRow.neg (inp.reduced_A.getD d [])))

/-- Affine map for l: the selected rows of -reduced_A scattered into a
dense accumulator of n_eq rows and recompressed. -/
def mappingL (inp : OSQPInput) : SpMat :=
  ⟨scatterRows inp.n_eq (luPairs inp (mappingRowsL inp)), inp.total + 1⟩

/-- Affine map for u: the bound-block rows of -reduced_A scattered into a
dense accumulator of n_eq + n_ineq rows and recompressed. -/
def mappingU (inp : OSQPInput) : SpMat :=
  ⟨scatterRows (inp.n_eq + inp.n_ineq) (luPairs inp (mappingRowsU inp)), inp.total + 1⟩

/-- A bound-vector value: either a finite rational or the signed-infinity
sentinel -inf used for absent one-sided bounds. -/
inductive BVal where
  | fin : ℚ → BVal
  | negInf : BVal
deriving DecidableEq

/-- canon_p for l: the affinely mapped finite part concatenated with the
constant -inf sentinel part of length n_ineq. -/
def canonL (inp : OSQPInput) (v : ℕ → ℚ) : List BVal :=
  ((mappingL inp).mulVec v).map BVal.fin ++ List.replicate inp.n_ineq BVal.negInf

/-- canon_p for u: the affinely mapped values over all rows. -/
def canonU (inp : OSQPInput) (v : ℕ → ℚ) : List ℚ := (mappingU inp).mulVec v

/-- The fixed list of OSQP canonical ids. -/
def osqpIds : List String := ["P", "q", "d", "A", "l", "u"]

/-- The six OSQP affine maps in id order. -/
def osqpMaps (inp : OSQPInput) : List SpMat :=
  [mappingP inp, mappingQ inp, mappingD inp, mappingA inp, mappingL inp, mappingU inp]

/-- Structural row indices of the csc encoding of A: indices_Alu[:n_data_A]. -/
def osqpIndicesA (inp : OSQPInput) : List ℕ := inp.indices_Alu.take (nDataA inp)

/-- Column pointers of the csc encoding of A: indptr_Alu[:-1]. -/
def osqpIndptrA (inp : OSQPInput) : List ℕ := inp.indptr_Alu.dropLast

/-- number of user parameters = length of the id-to-column table minus the
trailing sentinel entry. -/
def numParams (pcols : List ℕ) : ℕ := pcols.length - 1

/-- The flattened parameter vector with the appended constant entry 1. -/
def append1 (total : ℕ) (θ : ℕ → ℚ) : ℕ → ℚ := fun c => if c < total then θ c else 1

/-- Validity contract of the upstream OSQP reduction output: index and
pointer arrays form a well-formed compressed sparse-column structure and
the parameter column table is monotone and ends at the total size. -/
@[reducible] def OSQPValid (inp : OSQPInput) : Prop :=
  inp.indices_Alu.length = inp.reduced_A.length ∧
  inp.qmat.length = inp.n_var + 1 ∧
  (∀ d < nDataAlu inp, nDataA inp ≤ d → inp.indices_Alu.getD d 0 < inp.n_eq + inp.n_ineq) ∧
  (∀ d < nDataAlu inp, ∀ d2 < nDataAlu inp, nDataA inp ≤ d → nDataA inp ≤ d2 →
    inp.indices_Alu.getD d 0 = inp.indices_Alu.getD d2 0 → d = d2) ∧
  (∀ k < inp.indptr_Alu.length - 1, inp.indptr_Alu.getD k 0 ≤ inp.indptr_Alu.getD (k+1) 0) ∧
  (∀ k < inp.indptr_P.length - 1, inp.indptr_P.getD k 0 ≤ inp.indptr_P.getD (k+1) 0) ∧
  (∀ j < inp.p_cols.length - 1, inp.p_cols.getD j 0 ≤ inp.p_cols.getD (j+1) 0) ∧
  inp.p_cols.getD (inp.p_cols.length - 1) 0 = inp.total

/-- From-scratch canonicalization of l at a parameter vector v: structural
row r of the finite part carries the negated evaluation of the unique
equality-bound data row with index r, and 0 when no such data row exists. -/
def fromScratchL (inp : OSQPInput) (v : ℕ → ℚ) (r : ℕ) : ℚ :=
  match (mappingRowsL inp).find? (fun d => inp.indices_Alu.getD d 0 == r) with
  | some d => -(SpRow.dot (inp.reduced_A.getD d []) v)
  | none => 0

/-- From-scratch canonicalization of u at a parameter vector v: structural
row r carries the negated evaluation of the unique bound-block data row
with index r, and 0 when no such data row exists. -/
def fromScratchU (inp : OSQPInput) (v : ℕ → ℚ) (r : ℕ) : ℚ :=
  match (mappingRowsU inp).find? (fun d => inp.indices_Alu.getD d 0 == r) with
  | some d => -(SpRow.dot (inp.reduced_A.getD d []) v)
  | none => 0

theorem dot_nil (v : ℕ → ℚ) : SpRow.dot [] v = 0 := rfl

theorem dot_neg (r : SpRow) (v : ℕ → ℚ) :
    SpRow.dot (SpRow.neg r) v = -(SpRow.dot r v) := by
  induction r with
  | nil => rfl
  | cons p ps ih =>
    have hps : SpRow.dot (SpRow.neg ps) v = -(SpRow.dot ps v) := ih
    simp only [SpRow.dot, SpRow.neg, List.map_cons, List.sum_cons] at hps ⊢
    rw [hps]
    ring

/-- Entry r of a matrix-vector product, stated without bound side
conditions: out-of-range entries are 0 on both sides. -/
theorem mulVec_getD (M : SpMat) (v : ℕ → ℚ) (r : ℕ) :
    (M.mulVec v).getD r 0 = SpRow.dot (M.rows.getD r []) v := by
  unfold SpMat.mulVec
  rw [List.getD_eq_getElem?_getD, List.getD_eq_getElem?_getD, List.getElem?_map]
  cases M.rows[r]? with
  | none => rfl
  | some row => rfl

theorem OSQPValid.indexBound {inp : OSQPInput} (h : OSQPValid inp) :
    ∀ d < nDataAlu inp, nDataA inp ≤ d →
      inp.indices_Alu.getD d 0 < inp.n_eq + inp.n_ineq := h.2.2.1

theorem OSQPValid.indexInj {inp : OSQPInput} (h : OSQPValid inp) :
    ∀ d < nDataAlu inp, ∀ d2 < nDataAlu inp, nDataA inp ≤ d → nDataA inp ≤ d2 →
      inp.indices_Alu.getD d 0 = inp.indices_Alu.getD d2 0 → d = d2 := h.2.2.2.1

theorem nDataA_le (inp : OSQPInput) : nDataA inp ≤ nDataAlu inp := Nat.sub_le _ _

theorem mem_mappingRowsU (inp : OSQPInput) (d : ℕ) :
    d ∈ mappingRowsU inp ↔ nDataA inp ≤ d ∧ d < nDataAlu inp := by
  have hle := nDataA_le inp
  unfold mappingRowsU
  rw [List.mem_range'_1]
  omega

theorem mem_mappingRowsL (inp : OSQPInput) (d : ℕ) :
    d ∈ mappingRowsL inp ↔
      d < nDataAlu inp ∧ inp.indices_Alu.getD d 0 < inp.n_eq ∧ nDataA inp ≤ d := by
  unfold mappingRowsL
  simp only [List.mem_filter, List.mem_range, decide_eq_true_eq]
  tauto

theorem nodup_mappingRowsU (inp : OSQPInput) : (mappingRowsU inp).Nodup :=
  List.nodup_range' _ _

theorem nodup_mappingRowsL (inp : OSQPInput) : (mappingRowsL inp).Nodup :=
  ((List.nodup_range _).filter _).filter _

theorem luPairs_map_fst (inp : OSQPInput) (sel : List ℕ) :
    (luPairs inp sel).map Prod.fst = sel.map (fun d => inp.indices_Alu.getD d 0) := by
  simp [luPairs, List.map_map]

theorem luPairs_nodup_U (inp : OSQPInput) (h : OSQPValid inp) :
    ((luPairs inp (mappingRowsU inp)).map Prod.fst).Nodup := by
  rw [luPairs_map_fst]
  refine (nodup_mappingRowsU inp).map_on ?_
  intro x hx y hy hxy
  rw [mem_mappingRowsU] at hx hy
  exact h.indexInj x hx.2 y hy.2 hx.1 hy.1 hxy

theorem luPairs_nodup_L (inp : OSQPInput) (h : OSQPValid inp) :
    ((luPairs inp (mappingRowsL inp)).map Prod.fst).Nodup := by
  rw [luPairs_map_fst]
  refine (nodup_mappingRowsL inp).map_on ?_
  intro x hx y hy hxy
  rw [mem_mappingRowsL] at hx hy
  exact h.indexInj x hx.1 y hy.1 hx.2.2 hy.2.2 hxy

/-- Row r of the scattered map for u: the selected data row whose
structural index is r, negated, or the empty row when r is unselected. -/
theorem mappingU_row (inp : OSQPInput) (h : OSQPValid inp) (r : ℕ) :
    (mappingU inp).rows.getD r [] =
      match (mappingRowsU inp).find? (fun d => inp.indices_Alu.getD d 0 == r) with
      | some d => SpRow.neg (inp.reduced_A.getD d [])
      | none => [] := by
  cases hf : (mappingRowsU inp).find? (fun d => inp.indices_Alu.getD d 0 == r) with
  | none =>
    show (scatterRows (inp.n_eq + inp.n_ineq) (luPairs inp (mappingRowsU inp))).getD r [] = []
    apply scatterRows_getD_of_not_target
    intro p hp
    obtain ⟨d, hd, rfl⟩ := List.mem_map.mp hp
    have := List.find?_eq_none.mp hf d hd
    simpa using this
  | some d =>
    have hdr : inp.indices_Alu.getD d 0 = r := by simpa using List.find?_some hf
    have hdm := (mem_mappingRowsU inp d).mp (List.mem_of_find?_eq_some hf)
    have hrlt : r < inp.n_eq + inp.n_ineq := hdr ▸ h.indexBound d hdm.2 hdm.1
    have hpair : (r, SpRow.neg (inp.reduced_A.getD d [])) ∈ luPairs inp (mappingRowsU inp) := by
      rw [← hdr]
      exact List.mem_map_of_mem _ ((mem_mappingRowsU inp d).mpr hdm)
    exact scatterRows_getD_of_mem _ _ _ _ hpair (luPairs_nodup_U inp h) hrlt

/-- Row r of the scattered map for l: the selected equality-bound data row
whose structural index is r, negated, or the empty row when unselected. -/
theorem mappingL_row (inp : OSQPInput) (h : OSQPValid inp) (r : ℕ) :
    (mappingL inp).rows.getD r [] =
      match (mappingRowsL inp).find? (fun d => inp.indices_Alu.getD d 0 == r) with
      | some d => SpRow.neg (inp.reduced_A.getD d [])
      | none => [] := by
  cases hf : (mappingRowsL inp).find? (fun d => inp.indices_Alu.getD d 0 == r) with
  | none =>
    show (scatterRows inp.n_eq (luPairs inp (mappingRowsL inp))).getD r [] = []
    apply scatterRows_getD_of_not_target
    intro p hp
    obtain ⟨d, hd, rfl⟩ := List.mem_map.mp hp
    have := List.find?_eq_none.mp hf d hd
    simpa using this
  | some d =>
    have hdr : inp.indices_Alu.getD d 0 = r := by simpa using List.find?_some hf
    have hdm := (mem_mappingRowsL inp d).mp (List.mem_of_find?_eq_some hf)
    have hrlt : r < inp.n_eq := hdr ▸ hdm.2.1
    have hpair : (r, SpRow.neg (inp.reduced_A.getD d [])) ∈ luPairs inp (mappingRowsL inp) := by
      rw [← hdr]
      exact List.mem_map_of_mem _ ((mem_mappingRowsL inp d).mpr hdm)
    exact scatterRows_getD_of_mem _ _ _ _ hpair (luPairs_nodup_L inp h) hrlt

/-- Evaluating the built map for u at any vector reproduces the
from-scratch canonical u. -/
theorem mappingU_eval (inp : OSQPInput) (h : OSQPValid inp) (v : ℕ → ℚ) (r : ℕ) :
    ((mappingU inp).mulVec v).getD r 0 = fromScratchU inp v r := by
  rw [mulVec_getD, mappingU_row inp h r]
  unfold fromScratchU
  cases hf : (mappingRowsU inp).find? (fun d => inp.indices_Alu.getD d 0 == r) with
  | none => rfl
  | some d => exact dot_neg _ v

/-- Evaluating the built map for l at any vector reproduces the
from-scratch canonical finite part of l. -/
theorem mappingL_eval (inp : OSQPInput) (h : OSQPValid inp) (v : ℕ → ℚ) (r : ℕ) :
    ((mappingL inp).mulVec v).getD r 0 = fromScratchL inp v r := by
  rw [mulVec_getD, mappingL_row inp h r]
  unfold fromScratchL
  cases hf : (mappingRowsL inp).find? (fun d => inp.indices_Alu.getD d 0 == r) with
  | none => rfl
  | some d => exact dot_neg _ v

/-- On equality rows the from-scratch l and u coincide: equalities are
encoded as equal lower and upper bounds. -/
theorem fromScratchL_eq_fromScratchU (inp : OSQPInput) (h : OSQPValid inp)
    (v : ℕ → ℚ) (r : ℕ) (hr : r < inp.n_eq) :
    fromScratchL inp v r = fromScratchU inp v r := by
  unfold fromScratchL fromScratchU
  cases hfU : (mappingRowsU inp).find? (fun d => inp.indices_Alu.getD d 0 == r) with
  | none =>
    have hnone : (mappingRowsL inp).find? (fun d => inp.indices_Alu.getD d 0 == r) = none := by
      rw [List.find?_eq_none]
      intro d hd
      have hdm := (mem_mappingRowsL inp d).mp hd
      have hdU : d ∈ mappingRowsU inp := (mem_mappingRowsU inp d).mpr ⟨hdm.2.2, hdm.1⟩
      exact List.find?_eq_none.mp hfU d hdU
    rw [hnone]
  | some d =>
    have hdr : inp.indices_Alu.getD d 0 = r := by simpa using List.find?_some hfU
    have hdm := (mem_mappingRowsU inp d).mp (List.mem_of_find?_eq_some hfU)
    have hdL : d ∈ mappingRowsL inp :=
      (mem_mappingRowsL inp d).mpr ⟨hdm.2, hdr ▸ hr, hdm.1⟩
    have hsome : ((mappingRowsL inp).find?
        (fun d2 => inp.indices_Alu.getD d2 0 == r)).isSome := by
      rw [List.find?_isSome]
      exact ⟨d, hdL, by simpa using hdr⟩
    obtain ⟨d2, hfL⟩ := Option.isSome_iff_exists.mp hsome
    rw [hfL]
    have hd2r : inp.indices_Alu.getD d2 0 = r := by simpa using List.find?_some hfL
    have hd2m := (mem_mappingRowsL inp d2).mp (List.mem_of_find?_eq_some hfL)
    have : d2 = d := h.indexInj d2 hd2m.1 d hdm.2 hd2m.2.2 hdm.1 (hd2r.trans hdr.symm)
    rw [this]

/-! ### ECOS (conic) layout

Structural input supplied by the upstream reduction for the conic
canonicalization: the reduced coefficient matrix of the stacked
[A; G | b; h] data, the cost matrix c, the compressed sparse-column
index data of the stacked matrix, and the parameter column table. -/

structure ECOSInput where
  n_var : ℕ
  n_eq : ℕ
  n_ineq : ℕ
  total : ℕ
  reduced_A : List SpRow
  cvec : List SpRow
  indices_AGbh : List ℕ
  indptr_AGbh : List ℕ
  p_cols : List ℕ

/-- n_data_AGbh = len(indices_AGbh). -/
def nDataAGbh (inp : ECOSInput) : ℕ := inp.indices_AGbh.length

/-- n_data_bh = indptr_AGbh[-1] - indptr_AGbh[-2]. -/
def nDataBh (inp : ECOSInput) : ℕ :=
  inp.indptr_AGbh.getD (inp.indptr_AGbh.length - 1) 0 -
    inp.indptr_AGbh.getD (inp.indptr_AGbh.length - 2) 0

/-- n_data_AG = n_data_AGbh - n_data_bh. -/
def nDataAG (inp : ECOSInput) : ℕ := nDataAGbh inp - nDataBh inp

/-- mapping_rows_eq: data positions whose structural row index is an
equality row. -/
def mappingRowsEq (inp : ECOSInput) : List ℕ :=
  (List.range (nDataAGbh inp)).filter
    (fun d => decide (inp.indices_AGbh.getD d 0 < inp.n_eq))

/-- mapping_rows_ineq: data positions whose structural row index is an
inequality row. -/
def mappingRowsIneq (inp : ECOSInput) : List ℕ :=
  (List.range (nDataAGbh inp)).filter
    (fun d => decide (inp.n_eq ≤ inp.indices_AGbh.getD d 0))

/-- Selected data positions for A: equality rows inside the AG block. -/
def selA (inp : ECOSInput) : List ℕ :=
  (mappingRowsEq inp).filter (fun d => decide (d < nDataAG inp))

/-- Selected data positions for b: equality rows inside the bh block. -/
def selB (inp : ECOSInput) : List ℕ :=
  (mappingRowsEq inp).filter (fun d => decide (nDataAG inp ≤ d))

/-- Selected data positions for G: inequality rows inside the AG block. -/
def selG (inp : ECOSInput) : List ℕ :=
  (mappingRowsIneq inp).filter (fun d => decide (d < nDataAG inp))

/-- Selected data positions for h: inequality rows inside the bh block. -/
def selH (inp : ECOSInput) : List ℕ :=
  (mappingRowsIneq inp).filter (fun d => decide (nDataAG inp ≤ d))

/-- Affine map for c: p_prob.c without its last row. -/
def mappingC (inp : ECOSInput) : SpMat := ⟨inp.cvec.dropLast, inp.total + 1⟩

/-- Affine map for the cost offset d: the last row of p_prob.c. -/
def mappingDe (inp : ECOSInput) : SpMat := ⟨[inp.cvec.getLastD []], inp.total + 1⟩

/-- Affine map for A: -reduced_A restricted to the selected rows. -/
def mappingAe (inp : ECOSInput) : SpMat :=
  ⟨(selA inp).map (fun d => SpRow.neg (inp.reduced_A.getD d [])), inp.total + 1⟩

/-- Affine map for G: -reduced_A restricted to the selected rows. -/
def mappingGe (inp : ECOSInput) : SpMat :=
  ⟨(selG inp).map (fun d => SpRow.neg (inp.reduced_A.getD d [])), inp.total + 1⟩

/-- The scatter work list for b and h: each selected data row of
reduced_A (not negated) paired with its structural row index, shifted by
n_eq for h. -/
def bhPairs (inp : ECOSInput) (sel : List ℕ) (shift : ℕ) : List (ℕ × SpRow) :=
  sel.map (fun d => (inp.indices_AGbh.getD d 0 - shift, inp.reduced_A.getD d []))

/-- Affine map for b: selected rows of reduced_A scattered into a dense
accumulator of n_eq rows and recompressed. -/
def mappingB (inp : ECOSInput) : SpMat :=
  ⟨scatterRows inp.n_eq (bhPairs inp (selB inp) 0), inp.total + 1⟩

/-- Affine map for h: selected rows of reduced_A scattered into a dense
accumulator of n_ineq rows (with indices shifted by n_eq) and
recompressed. -/
def mappingH (inp : ECOSInput) : SpMat :=
  ⟨scatterRows inp.n_ineq (bhPairs inp (selH inp) inp.n_eq), inp.total + 1⟩

/-- The fixed list of ECOS canonical ids. -/
def ecosIds : List String := ["c", "d", "A", "b", "G", "h"]

/-- The six ECOS affine maps in id order. -/
def ecosMaps (inp : ECOSInput) : List SpMat :=
  [mappingC inp, mappingDe inp, mappingAe inp, mappingB inp, mappingGe inp, mappingH inp]

/-- Structural row indices of the csc encoding of A: indices_AGbh at the
selected positions. -/
def indicesAe (inp : ECOSInput) : List ℕ :=
  (selA inp).map (fun d => inp.indices_AGbh.getD d 0)

/-- Structural row indices of the csc encoding of G, shifted into the
inequality block. -/
def indicesGe (inp : ECOSInput) : List ℕ :=
  (selG inp).map (fun d => inp.indices_AGbh.getD d 0 - inp.n_eq)

/-- Increment all entries of a pointer array at positions at least j:
the statement indptr[j:] += 1. -/
def bumpFrom : List ℕ → ℕ → List ℕ
  | [], _ => []
  | x :: xs, 0 => (x + 1) :: bumpFrom xs 0
  | x :: xs, j + 1 => x :: bumpFrom xs j

/-- The inner column search of the indptr recomputation: the first column
c with indptr_original[c] <= r < indptr_original[c + 1]. -/
def findCol (orig : List ℕ) (r : ℕ) : Option ℕ :=
  (List.range (orig.length - 1)).find?
    (fun c => decide (orig.getD c 0 ≤ r) && decide (r < orig.getD (c + 1) 0))

/-- The recomputed column pointer array for the ECOS matrices: starting
from a zero array of the shape of indptr_original, each selected data row
r increments the pointer tail after its column. -/
def ecosIndptr (orig : List ℕ) (sel : List ℕ) : List ℕ :=
  sel.foldl
    (fun ip r =>
      match findCol orig r with
      | some c => bumpFrom ip (c + 1)
      | none => ip)
    (List.replicate orig.length 0)

/-- Column pointers of the csc encoding of A. -/
def indptrAe (inp : ECOSInput) : List ℕ :=
  ecosIndptr inp.indptr_AGbh.dropLast (selA inp)

/-- Column pointers of the csc encoding of G. -/
def indptrGe (inp : ECOSInput) : List ℕ :=
  ecosIndptr inp.indptr_AGbh.dropLast (selG inp)

/-- Validity contract of the upstream conic reduction output. -/
@[reducible] def ECOSValid (inp : ECOSInput) : Prop :=
  inp.indices_AGbh.length = inp.reduced_A.length ∧
  inp.cvec.length = inp.n_var + 1 ∧
  (∀ d < nDataAGbh inp, nDataAG inp ≤ d →
    inp.indices_AGbh.getD d 0 < inp.n_eq + inp.n_ineq) ∧
  (∀ d < nDataAGbh inp, ∀ d2 < nDataAGbh inp, nDataAG inp ≤ d → nDataAG inp ≤ d2 →
    inp.indices_AGbh.getD d 0 = inp.indices_AGbh.getD d2 0 → d = d2) ∧
  (∀ k < inp.indptr_AGbh.length - 1,
    inp.indptr_AGbh.getD k 0 ≤ inp.indptr_AGbh.getD (k+1) 0) ∧
  (∀ j < inp.p_cols.length - 1, inp.p_cols.getD j 0 ≤ inp.p_cols.getD (j+1) 0) ∧
  inp.p_cols.getD (inp.p_cols.length - 1) 0 = inp.total

theorem ECOSValid.boundE {inp : ECOSInput} (h : ECOSValid inp) :
    ∀ d < nDataAGbh inp, nDataAG inp ≤ d →
      inp.indices_AGbh.getD d 0 < inp.n_eq + inp.n_ineq := h.2.2.1

theorem ECOSValid.injE {inp : ECOSInput} (h : ECOSValid inp) :
    ∀ d < nDataAGbh inp, ∀ d2 < nDataAGbh inp, nDataAG inp ≤ d → nDataAG inp ≤ d2 →
      inp.indices_AGbh.getD d 0 = inp.indices_AGbh.getD d2 0 → d = d2 := h.2.2.2.1

/-- From-scratch canonicalization of b at a parameter vector v. -/
def fromScratchB (inp : ECOSInput) (v : ℕ → ℚ) (r : ℕ) : ℚ :=
  match (selB inp).find? (fun d => inp.indices_AGbh.getD d 0 == r) with
  | some d => SpRow.dot (inp.reduced_A.getD d []) v
  | none => 0

/-- From-scratch canonicalization of h at a parameter vector v. -/
def fromScratchH (inp : ECOSInput) (v : ℕ → ℚ) (r : ℕ) : ℚ :=
  match (selH inp).find? (fun d => inp.indices_AGbh.getD d 0 - inp.n_eq == r) with
  | some d => SpRow.dot (inp.reduced_A.getD d []) v
  | none => 0

theorem mem_selB (inp : ECOSInput) (d : ℕ) :
    d ∈ selB inp ↔
      d < nDataAGbh inp ∧ inp.indices_AGbh.getD d 0 < inp.n_eq ∧ nDataAG inp ≤ d := by
  unfold selB mappingRowsEq
  simp only [List.mem_filter, List.mem_range, decide_eq_true_eq]
  tauto

theorem mem_selH (inp : ECOSInput) (d : ℕ) :
    d ∈ selH inp ↔
      d < nDataAGbh inp ∧ inp.n_eq ≤ inp.indices_AGbh.getD d 0 ∧ nDataAG inp ≤ d := by
  unfold selH mappingRowsIneq
  simp only [List.mem_filter, List.mem_range, decide_eq_true_eq]
  tauto

theorem nodup_selB (inp : ECOSInput) : (selB inp).Nodup :=
  ((List.nodup_range _).filter _).filter _

theorem nodup_selH (inp : ECOSInput) : (selH inp).Nodup :=
  ((List.nodup_range _).filter _).filter _

theorem bhPairs_map_fst (inp : ECOSInput) (sel : List ℕ) (shift : ℕ) :
    (bhPairs inp sel shift).map Prod.fst =
      sel.map (fun d => inp.indices_AGbh.getD d 0 - shift) := by
  simp [bhPairs, List.map_map]

theorem bhPairs_nodup_B (inp : ECOSInput) (h : ECOSValid inp) :
    ((bhPairs inp (selB inp) 0).map Prod.fst).Nodup := by
  rw [bhPairs_map_fst]
  refine (nodup_selB inp).map_on ?_
  intro x hx y hy hxy
  rw [mem_selB] at hx hy
  exact h.injE x hx.1 y hy.1 hx.2.2 hy.2.2 (by omega)

theorem bhPairs_nodup_H (inp : ECOSInput) (h : ECOSValid inp) :
    ((bhPairs inp (selH inp) inp.n_eq).map Prod.fst).Nodup := by
  rw [bhPairs_map_fst]
  refine (nodup_selH inp).map_on ?_
  intro x hx y hy hxy
  rw [mem_selH] at hx hy
  have hx2 := hx.2.1
  have hy2 := hy.2.1
  exact h.injE x hx.1 y hy.1 hx.2.2 hy.2.2 (by omega)

/-- Row r of the scattered map for b: the selected equality data row whose
structural index is r, or the empty row when unselected. -/
theorem mappingB_row (inp : ECOSInput) (h : ECOSValid inp) (r : ℕ) :
    (mappingB inp).rows.getD r [] =
      match (selB inp).find? (fun d => inp.indices_AGbh.getD d 0 == r) with
      | some d => inp.reduced_A.getD d []
      | none => [] := by
  cases hf : (selB inp).find? (fun d => inp.indices_AGbh.getD d 0 == r) with
  | none =>
    show (scatterRows inp.n_eq (bhPairs inp (selB inp) 0)).getD r [] = []
    apply scatterRows_getD_of_not_target
    intro p hp
    obtain ⟨d, hd, rfl⟩ := List.mem_map.mp hp
    have := List.find?_eq_none.mp hf d hd
    simpa using this
  | some d =>
    have hdr : inp.indices_AGbh.getD d 0 = r := by simpa using List.find?_some hf
    have hdm := (mem_selB inp d).mp (List.mem_of_find?_eq_some hf)
    have hrlt : r < inp.n_eq := hdr ▸ hdm.2.1
    have hpair : (r, inp.reduced_A.getD d []) ∈ bhPairs inp (selB inp) 0 := by
      have hmem : (inp.indices_AGbh.getD d 0 - 0, inp.reduced_A.getD d []) ∈
          bhPairs inp (selB inp) 0 :=
        List.mem_map_of_mem _ ((mem_selB inp d).mpr hdm)
      rwa [Nat.sub_zero, hdr] at hmem
    exact scatterRows_getD_of_mem _ _ _ _ hpair (bhPairs_nodup_B inp h) hrlt

/-- Row r of the scattered map for h: the selected inequality data row
whose shifted structural index is r, or the empty row when unselected. -/
theorem mappingH_row (inp : ECOSInput) (h : ECOSValid inp) (r : ℕ) :
    (mappingH inp).rows.getD r [] =
      match (selH inp).find? (fun d => inp.indices_AGbh.getD d 0 - inp.n_eq == r) with
      | some d => inp.reduced_A.getD d []
      | none => [] := by
  cases hf : (selH inp).find? (fun d => inp.indices_AGbh.getD d 0 - inp.n_eq == r) with
  | none =>
    show (scatterRows inp.n_ineq (bhPairs inp (selH inp) inp.n_eq)).getD r [] = []
    apply scatterRows_getD_of_not_target
    intro p hp
    obtain ⟨d, hd, rfl⟩ := List.mem_map.mp hp
    have := List.find?_eq_none.mp hf d hd
    simpa using this
  | some d =>
    have hdr : inp.indices_AGbh.getD d 0 - inp.n_eq = r := by simpa using List.find?_some hf
    have hdm := (mem_selH inp d).mp (List.mem_of_find?_eq_some hf)
    have hbnd := h.boundE d hdm.1 hdm.2.2
    have hrlt : r < inp.n_ineq := by omega
    have hpair : (r, inp.reduced_A.getD d []) ∈ bhPairs inp (selH inp) inp.n_eq := by
      rw [← hdr]
      exact List.mem_map_of_mem _ ((mem_selH inp d).mpr hdm)
    exact scatterRows_getD_of_mem _ _ _ _ hpair (bhPairs_nodup_H inp h) hrlt

/-- Evaluating the built map for b at any vector reproduces the
from-scratch canonical b. -/
theorem mappingB_eval (inp : ECOSInput) (h : ECOSValid inp) (v : ℕ → ℚ) (r : ℕ) :
    ((mappingB inp).mulVec v).getD r 0 = fromScratchB inp v r := by
  rw [mulVec_getD, mappingB_row inp h r]
  unfold fromScratchB
  cases hf : (selB inp).find? (fun d => inp.indices_AGbh.getD d 0 == r) with
  | none => rfl
  | some d => rfl

/-- Evaluating the built map for h at any vector reproduces the
from-scratch canonical h. -/
theorem mappingH_eval (inp : ECOSInput) (h : ECOSValid inp) (v : ℕ → ℚ) (r : ℕ) :
    ((mappingH inp).mulVec v).getD r 0 = fromScratchH inp v r := by
  rw [mulVec_getD, mappingH_row inp h r]
  unfold fromScratchH
  cases hf : (selH inp).find? (fun d => inp.indices_AGbh.getD d 0 - inp.n_eq == r) with
  | none => rfl
  | some d => rfl

/-! ### Analysis of the recomputed column pointers -/

theorem bumpFrom_length (ip : List ℕ) (j : ℕ) : (bumpFrom ip j).length = ip.length := by
  induction ip generalizing j with
  | nil => cases j <;> rfl
  | cons x xs ih => cases j <;> simp [bumpFrom, ih]

theorem bumpFrom_getD (ip : List ℕ) (j k : ℕ) (hk : k < ip.length) :
    (bumpFrom ip j).getD k 0 = ip.getD k 0 + (if j ≤ k then 1 else 0) := by
  induction ip generalizing j k with
  | nil => simp at hk
  | cons x xs ih =>
    cases j with
    | zero =>
      cases k with
      | zero => simp [bumpFrom]
      | succ m =>
        simp only [bumpFrom, List.getD_cons_succ]
        rw [ih 0 m (by simpa using hk)]
        simp
    | succ n =>
      cases k with
      | zero => simp [bumpFrom]
      | succ m =>
        simp only [bumpFrom, List.getD_cons_succ]
        rw [ih n m (by simpa using hk)]
        simp [Nat.succ_le_succ_iff]

/-- One selected data row r contributes to pointer position k exactly when
its column c satisfies c + 1 <= k. -/
def colHit (orig : List ℕ) (r k : ℕ) : Bool :=
  match findCol orig r with
  | some c => decide (c + 1 ≤ k)
  | none => false

theorem ecosIndptr_foldl_getD (orig : List ℕ) (sel : List ℕ) (acc : List ℕ)
    (hlen : acc.length = orig.length) (k : ℕ) (hk : k < orig.length) :
    (sel.foldl
        (fun ip r =>
          match findCol orig r with
          | some c => bumpFrom ip (c + 1)
          | none => ip)
        acc).getD k 0
      = acc.getD k 0 + sel.countP (fun r => colHit orig r k) := by
  induction sel generalizing acc with
  | nil => simp
  | cons r rs ih =>
    rw [List.foldl_cons, List.countP_cons]
    cases hc : findCol orig r with
    | none =>
      rw [ih acc hlen]
      simp [colHit, hc]
    | some c =>
      rw [ih (bumpFrom acc (c + 1)) ((bumpFrom_length acc (c + 1)).trans hlen),
        bumpFrom_getD acc (c + 1) k (hlen ▸ hk)]
      simp only [colHit, hc]
      by_cases hck : c + 1 ≤ k <;> simp [hck] <;> omega

theorem ecosIndptr_getD (orig sel : List ℕ) (k : ℕ) (hk : k < orig.length) :
    (ecosIndptr orig sel).getD k 0 = sel.countP (fun r => colHit orig r k) := by
  unfold ecosIndptr
  rw [ecosIndptr_foldl_getD orig sel _ (by simp) k hk]
  simp

theorem countP_mono_of_imp {α : Type} (l : List α) (p q : α → Bool)
    (h : ∀ a ∈ l, p a = true → q a = true) : l.countP p ≤ l.countP q := by
  induction l with
  | nil => simp
  | cons a l ih =>
    simp only [List.countP_cons]
    have hrec := ih (fun b hb => h b (List.mem_cons_of_mem a hb))
    by_cases hp : p a = true
    · have hq := h a (List.mem_cons_self a l) hp
      simp [hp, hq]
      omega
    · by_cases hq : q a = true <;> simp [hp, hq] <;> omega

theorem countP_or_disjoint {α : Type} (l : List α) (p q s : α → Bool)
    (hsplit : ∀ a ∈ l, p a = (q a || s a))
    (hdis : ∀ a ∈ l, ¬(q a = true ∧ s a = true)) :
    l.countP p = l.countP q + l.countP s := by
  induction l with
  | nil => simp
  | cons a l ih =>
    simp only [List.countP_cons]
    rw [ih (fun b hb => hsplit b (List.mem_cons_of_mem a hb))
      (fun b hb => hdis b (List.mem_cons_of_mem a hb))]
    have hs := hsplit a (List.mem_cons_self a l)
    have hd := hdis a (List.mem_cons_self a l)
    cases hqa : q a <;> cases hsa : s a <;> simp [hqa, hsa] at hs hd ⊢ <;> simp [hs] <;> omega

/-- The recomputed column pointers are non-decreasing. -/
theorem ecosIndptr_mono (orig sel : List ℕ) (k : ℕ) (hk : k + 1 < orig.length) :
    (ecosIndptr orig sel).getD k 0 ≤ (ecosIndptr orig sel).getD (k + 1) 0 := by
  rw [ecosIndptr_getD orig sel k (by omega), ecosIndptr_getD orig sel (k + 1) hk]
  apply countP_mono_of_imp
  intro r _ hp
  unfold colHit at hp ⊢
  cases hc : findCol orig r with
  | none => rw [hc] at hp; exact absurd hp (by simp)
  | some c =>
    rw [hc] at hp
    simp only [decide_eq_true_eq] at hp ⊢
    omega

/-- Consecutive pointer difference counts exactly the selected data rows of
that column; a structurally empty column gives equal consecutive entries. -/
theorem ecosIndptr_step (orig sel : List ℕ) (c : ℕ) (hc : c + 1 < orig.length) :
    (ecosIndptr orig sel).getD (c + 1) 0 =
      (ecosIndptr orig sel).getD c 0 +
        sel.countP (fun r => findCol orig r == some c) := by
  rw [ecosIndptr_getD orig sel c (by omega), ecosIndptr_getD orig sel (c + 1) hc]
  apply countP_or_disjoint
  · intro r _
    unfold colHit
    cases hf : findCol orig r with
    | none => simp
    | some c2 =>
      simp only [beq_iff_eq, Option.some.injEq]
      by_cases h2 : c2 = c
      · subst h2
        simp
      · have hiff : (c2 + 1 ≤ c + 1) ↔ (c2 + 1 ≤ c) := by omega
        simp [h2, hiff]
  · intro r _
    rintro ⟨hq, hs⟩
    unfold colHit at hq
    cases hf : findCol orig r with
    | none => rw [hf] at hq; exact absurd hq (by simp)
    | some c2 =>
      rw [hf] at hq hs
      simp only [decide_eq_true_eq] at hq
      simp only [beq_iff_eq, Option.some.injEq] at hs
      omega

/-! ### Entry access helpers -/

theorem getD_map_of_lt {α β : Type} (f : α → β) (l : List α) (k : ℕ) (hk : k < l.length)
    (d : α) (d2 : β) : (l.map f).getD k d2 = f (l.getD k d) := by
  rw [List.getD_eq_getElem?_getD, List.getD_eq_getElem?_getD, List.getElem?_map,
    List.getElem?_eq_getElem hk]
  rfl

theorem getD_dropLast_of_lt {α : Type} (l : List α) (k : ℕ) (hk : k < l.length - 1)
    (d : α) : l.dropLast.getD k d = l.getD k d := by
  induction l generalizing k with
  | nil => simp at hk
  | cons x xs ih =>
    cases xs with
    | nil => simp at hk
    | cons y ys =>
      cases k with
      | zero => rfl
      | succ m =>
        simp only [List.dropLast_cons₂, List.getD_cons_succ]
        exact ih m (by simpa using hk)

theorem getD_take_of_lt {α : Type} (l : List α) (n k : ℕ) (hk : k < n) (d : α) :
    (l.take n).getD k d = l.getD k d := by
  rw [List.getD_eq_getElem?_getD, List.getD_eq_getElem?_getD, List.getElem?_take]
  simp [hk]

/-! ### Structural non-zero count versus entry existence -/

theorem row_nnzIn_pos_iff (row : SpRow) (a b : ℕ) :
    0 < row.nnzIn a b ↔ ∃ p ∈ row, a ≤ p.1 ∧ p.1 < b := by
  unfold SpRow.nnzIn
  rw [List.length_pos]
  constructor
  · intro h
    obtain ⟨p, hp⟩ := List.exists_mem_of_ne_nil _ h
    have hm := List.mem_filter.mp hp
    refine ⟨p, hm.1, ?_, ?_⟩
    · have := hm.2
      simp only [Bool.and_eq_true, decide_eq_true_eq] at this
      exact this.1
    · have := hm.2
      simp only [Bool.and_eq_true, decide_eq_true_eq] at this
      exact this.2
  · rintro ⟨p, hp, h1, h2⟩
    intro hnil
    have hmem : p ∈ row.filter (fun q => decide (a ≤ q.1) && decide (q.1 < b)) :=
      List.mem_filter.mpr ⟨hp, by simp [h1, h2]⟩
    rw [hnil] at hmem
    simp at hmem

theorem nnzIn_pos_iff (M : SpMat) (a b : ℕ) :
    0 < M.nnzIn a b ↔ M.hasEntryIn a b := by
  unfold SpMat.nnzIn SpMat.hasEntryIn
  constructor
  · intro h
    have hex : ∃ x ∈ M.rows.map (fun r => SpRow.nnzIn r a b), 0 < x := by
      by_contra hno
      push_neg at hno
      have hz : (M.rows.map (fun r => SpRow.nnzIn r a b)).sum = 0 := by
        apply List.sum_eq_zero
        intro x hx
        exact Nat.le_zero.mp (hno x hx)
      omega
    obtain ⟨x, hx, hxpos⟩ := hex
    obtain ⟨r, hr, rfl⟩ := List.mem_map.mp hx
    obtain ⟨p, hp, h1, h2⟩ := (row_nnzIn_pos_iff r a b).mp hxpos
    exact ⟨r, hr, p, hp, h1, h2⟩
  · rintro ⟨r, hr, p, hp, h1, h2⟩
    have hrpos := (row_nnzIn_pos_iff r a b).mpr ⟨p, hp, h1, h2⟩
    have hle : SpRow.nnzIn r a b ≤ (M.rows.map (fun r2 => SpRow.nnzIn r2 a b)).sum :=
      List.single_le_sum (fun x _ => Nat.zero_le x) _
        (List.mem_map_of_mem (fun r2 => SpRow.nnzIn r2 a b) hr)
    omega

/-- Monotone prefix-table entries are bounded by later entries. -/
theorem getD_le_of_mono (pcols : List ℕ)
    (hmono : ∀ i < pcols.length - 1, pcols.getD i 0 ≤ pcols.getD (i+1) 0) :
    ∀ gap i, i + gap ≤ pcols.length - 1 → pcols.getD i 0 ≤ pcols.getD (i + gap) 0 := by
  intro gap
  induction gap with
  | zero => intro i _; simp
  | succ g ih =>
    intro i h
    have h1 : pcols.getD i 0 ≤ pcols.getD (i + g) 0 := ih i (by omega)
    have h2 : pcols.getD (i + g) 0 ≤ pcols.getD (i + g + 1) 0 := hmono (i + g) (by omega)
    have : i + (g + 1) = i + g + 1 := by omega
    rw [this]
    omega

/-! ### The generation pass as a function of the structural input and the
flattened parameter assignment -/

/-- All outputs of the OSQP branch of generate_code that belong to the
canonicalization core. -/
structure OSQPGen where
  maps : List SpMat
  changesList : List Bool
  adj : List (List Bool)
  outdatedSets : List (List String)
  indicesP : List ℕ
  indptrP : List ℕ
  indicesA : List ℕ
  indptrA : List ℕ
  valsP : List ℚ
  valsQ : List ℚ
  valsD : List ℚ
  valsA : List ℚ
  valsL : List BVal
  valsU : List ℚ

/-- One run of the OSQP canonicalization core at a flattened parameter
assignment θ (the appended constant entry is fixed to 1). -/
def runOSQP (inp : OSQPInput) (θ : ℕ → ℚ) : OSQPGen :=
  ⟨osqpMaps inp,
   (osqpMaps inp).map changes,
   (osqpMaps inp).map
     (fun M => (List.range (numParams inp.p_cols)).map (fun j => adjacency M inp.p_cols j)),
   (List.range (numParams inp.p_cols)).map
     (fun j => outdated (osqpMaps inp) osqpIds inp.p_cols j),
   inp.indices_P,
   inp.indptr_P,
   osqpIndicesA inp,
   osqpIndptrA inp,
   (mappingP inp).mulVec (append1 inp.total θ),
   (mappingQ inp).mulVec (append1 inp.total θ),
   (mappingD inp).mulVec (append1 inp.total θ),
   (mappingA inp).mulVec (append1 inp.total θ),
   canonL inp (append1 inp.total θ),
   canonU inp (append1 inp.total θ)⟩

/-- All outputs of the ECOS branch of generate_code that belong to the
canonicalization core. -/
structure ECOSGen where
  maps : List SpMat
  changesList : List Bool
  adj : List (List Bool)
  outdatedSets : List (List String)
  indicesA : List ℕ
  indptrA : List ℕ
  indicesG : List ℕ
  indptrG : List ℕ
  valsC : List ℚ
  valsD : List ℚ
  valsA : List ℚ
  valsB : List ℚ
  valsG : List ℚ
  valsH : List ℚ

/-- One run of the ECOS canonicalization core at a flattened parameter
assignment θ. -/
def runECOS (inp : ECOSInput) (θ : ℕ → ℚ) : ECOSGen :=
  ⟨ecosMaps inp,
   (ecosMaps inp).map changes,
   (ecosMaps inp).map
     (fun M => (List.range (numParams inp.p_cols)).map (fun j => adjacency M inp.p_cols j)),
   (List.range (numParams inp.p_cols)).map
     (fun j => outdated (ecosMaps inp) ecosIds inp.p_cols j),
   indicesAe inp,
   indptrAe inp,
   indicesGe inp,
   indptrGe inp,
   (mappingC inp).mulVec (append1 inp.total θ),
   (mappingDe inp).mulVec (append1 inp.total θ),
   (mappingAe inp).mulVec (append1 inp.total θ),
   (mappingB inp).mulVec (append1 inp.total θ),
   (mappingGe inp).mulVec (append1 inp.total θ),
   (mappingH inp).mulVec (append1 inp.total θ)⟩

/-! ### Filesystem effect skeleton of generate_code

The ordered filesystem effects of the generation pass, abstracted per
statement of the source: the optional deletion of an existing code_dir,
the template copy, the solver branch effects, and the common emission
steps after the branch. -/

inductive FsOp where
  | rmtreeCodeDir
  | copyTemplate
  | osqpCodegen
  | rmtreeSolverCode
  | mkdirSolverCode
  | copyEcosSources
  | patchEcosFiles
  | appendWorkspaceProt
  | appendWorkspaceDef
  | appendSolveProt
  | appendSolveDef
  | appendExampleDef
  | appendCanonCMake
  | appendModuleProt
  | appendModuleDef
  | appendSolveMethod
  | writePickle
  | compileModule
  | patchReadme
deriving DecidableEq

inductive GenError where
  | unknownCanonId (layout : String) (pid : String)
  | unsupportedSolver
deriving DecidableEq

/-- The per-id dispatch of the OSQP loop body: the fixed canonical ids
are recognized, any other id raises ValueError. -/
def osqpRecognized (pid : String) : Except GenError Unit :=
  if pid = "P" ∨ pid = "q" ∨ pid = "d" ∨ pid = "A" ∨ pid = "l" ∨ pid = "u" then .ok ()
  else .error (.unknownCanonId "OSQP" pid)

/-- The per-id dispatch of the ECOS loop body. -/
def ecosRecognized (pid : String) : Except GenError Unit :=
  if pid = "c" ∨ pid = "d" ∨ pid = "A" ∨ pid = "b" ∨ pid = "G" ∨ pid = "h" then .ok ()
  else .error (.unknownCanonId "ECOS" pid)

/-- The solver dispatch: solver-specific effects for the two supported
layouts, ValueError for every other solver identifier. -/
def solverOps (solverName : String) : Except GenError (List FsOp) :=
  if solverName = "OSQP" then .ok [.osqpCodegen]
  else if solverName = "ECOS" then
    .ok [.rmtreeSolverCode, .mkdirSolverCode, .copyEcosSources, .patchEcosFiles]
  else .error .unsupportedSolver

/-- The common emission steps performed after the solver branch. -/
def commonOps (compile : Bool) : List FsOp :=
  [.appendWorkspaceProt, .appendWorkspaceDef, .appendSolveProt, .appendSolveDef,
   .appendExampleDef, .appendCanonCMake, .appendModuleProt, .appendModuleDef,
   .appendSolveMethod, .writePickle] ++
  (if compile then [.compileModule] else []) ++ [.patchReadme]

/-- The ordered effect trace of one call of generate_code together with
the raised error, if any: an existing code_dir is deleted, the template
is copied, then the solver branch runs; an unsupported solver raises
after the template copy and before any further effect. -/
def generateCodeOps (codeDirExists : Bool) (solverName : String) (compile : Bool) :
    List FsOp × Option GenError :=
  let pre := (if codeDirExists then [FsOp.rmtreeCodeDir] else []) ++ [FsOp.copyTemplate]
  match solverOps solverName with
  | .ok ops => (pre ++ ops ++ commonOps compile, none)
  | .error err => (pre, some err)

/-- Contents of the code_dir path as provenance markers: none when the
path does not exist. -/
def applyOp (s : Option (List FsOp)) (op : FsOp) : Option (List FsOp) :=
  match op with
  | .rmtreeCodeDir => none
  | .copyTemplate => some [FsOp.copyTemplate]
  | o => s.map (fun fs => fs ++ [o])

def execOps (ops : List FsOp) (s : Option (List FsOp)) : Option (List FsOp) :=
  ops.foldl applyOp s

/-! ### Parameter default assignment and repeated invocation

Parameters without an assigned value receive a randomly drawn value via
project_and_assign, which stores the value on the parameter object; the
draw is modelled as an oracle indexed by parameter position. -/

def assignVals : (ℕ → List ℚ) → ℕ → List (Option (List ℚ)) → List (Option (List ℚ))
  | _, _, [] => []
  | draw, i, v :: rest =>
    (match v with
     | some x => some x
     | none => some (draw i)) :: assignVals draw (i + 1) rest

/-- The flattened parameter vector read off the stored parameter values
(the appended constant is supplied by append1). -/
def flatParams (vals : List (Option (List ℚ))) : ℕ → ℚ :=
  fun c => ((vals.map (fun o => o.getD [])).flatten).getD c 0

/-- One invocation of generate_code on the OSQP layout: assign defaults
to unset parameters (mutating the problem state), then run the
canonicalization core on the resulting flattened assignment. -/
def genOnce (inp : OSQPInput) (draw : ℕ → List ℚ) (s : List (Option (List ℚ))) :
    List (Option (List ℚ)) × OSQPGen :=
  let s2 := assignVals draw 0 s
  (s2, runOSQP inp (flatParams s2))

theorem assignVals_assigned (d1 d2 : ℕ → List ℚ) (i : ℕ) (s : List (Option (List ℚ))) :
    assignVals d2 i (assignVals d1 i s) = assignVals d1 i s := by
  induction s generalizing i with
  | nil => rfl
  | cons v rest ih =>
    cases v with
    | none => simp [assignVals, ih]
    | some x => simp [assignVals, ih]

/-! ### Concrete structural instances used by the witnesses -/

/-- A tiny OSQP structural instance: one variable, one equality row, one
inequality row, one scalar parameter. The stacked [A | bounds] matrix
stores column 0 at rows 0 and 1 and the bound column at row 0. -/
def wOSQP : OSQPInput :=
  ⟨1, 1, 1, 1,
   [[(0, 1)]],
   [[(1, 1)], [(0, 1)], [(0, 2), (1, 3)]],
   [[(0, 1)], [(1, 5)]],
   [0], [0, 1],
   [0, 1, 0], [0, 2, 3],
   [0, 1]⟩

/-- A tiny ECOS structural instance: one variable, one equality row, one
inequality row, one scalar parameter; the constant column stores b at
row 0 and h at row 1. -/
def wECOS : ECOSInput :=
  ⟨1, 1, 1, 1,
   [[(1, 1)], [(0, 1)], [(0, 2), (1, 3)], [(1, 4)]],
   [[(0, 1)], [(1, 5)]],
   [0, 1, 0, 1], [0, 2, 4],
   [0, 1]⟩

/-! ### The claims -/

/-- C1: for every canonical array id in the active solver layout,
evaluating the built affine map at any flattened parameter vector with
appended constant 1 equals the from-scratch canonicalized values array
for that id; in particular the stored values arrays equal
mapping @ user_p_flat at the assignment used at generation time. -/
theorem spec_C1 (inp : OSQPInput) (hv : OSQPValid inp)
    (einp : ECOSInput) (he : ECOSValid einp) (θ : ℕ → ℚ) :
    (∀ r, ((mappingL inp).mulVec (append1 inp.total θ)).getD r 0 =
        fromScratchL inp (append1 inp.total θ) r) ∧
    (∀ r, ((mappingU inp).mulVec (append1 inp.total θ)).getD r 0 =
        fromScratchU inp (append1 inp.total θ) r) ∧
    (∀ k, ((mappingP inp).mulVec (append1 inp.total θ)).getD k 0 =
        SpRow.dot (inp.reduced_P.getD k []) (append1 inp.total θ)) ∧
    (∀ k < inp.n_var, ((mappingQ inp).mulVec (append1 inp.total θ)).getD k 0 =
        SpRow.dot (inp.qmat.getD k []) (append1 inp.total θ)) ∧
    ((mappingD inp).mulVec (append1 inp.total θ) =
        [SpRow.dot (inp.qmat.getLastD []) (append1 inp.total θ)]) ∧
    (∀ k < nDataA inp, ((mappingA inp).mulVec (append1 inp.total θ)).getD k 0 =
        SpRow.dot (inp.reduced_A.getD k []) (append1 inp.total θ)) ∧
    ((runOSQP inp θ).valsU = (mappingU inp).mulVec (append1 inp.total θ)) ∧
    ((runOSQP inp θ).valsP = (mappingP inp).mulVec (append1 inp.total θ)) ∧
    (∀ r, ((mappingB einp).mulVec (append1 einp.total θ)).getD r 0 =
        fromScratchB einp (append1 einp.total θ) r) ∧
    (∀ r, ((mappingH einp).mulVec (append1 einp.total θ)).getD r 0 =
        fromScratchH einp (append1 einp.total θ) r) ∧
    (∀ k < (selA einp).length,
        ((mappingAe einp).mulVec (append1 einp.total θ)).getD k 0 =
          -(SpRow.dot (einp.reduced_A.getD ((selA einp).getD k 0) [])
              (append1 einp.total θ))) ∧
    (∀ k < einp.n_var, ((mappingC einp).mulVec (append1 einp.total θ)).getD k 0 =
        SpRow.dot (einp.cvec.getD k []) (append1 einp.total θ)) ∧
    ((mappingDe einp).mulVec (append1 einp.total θ) =
        [SpRow.dot (einp.cvec.getLastD []) (append1 einp.total θ)]) ∧
    (∀ k < (selG einp).length,
        ((mappingGe einp).mulVec (append1 einp.total θ)).getD k 0 =
          -(SpRow.dot (einp.reduced_A.getD ((selG einp).getD k 0) [])
              (append1 einp.total θ))) := by
  refine ⟨fun r => mappingL_eval inp hv _ r, fun r => mappingU_eval inp hv _ r,
    fun k => mulVec_getD _ _ k, ?_, rfl, ?_, rfl, rfl,
    fun r => mappingB_eval einp he _ r, fun r => mappingH_eval einp he _ r, ?_, ?_, rfl, ?_⟩
  · intro k hk
    rw [mulVec_getD]
    have hq := hv.2.1
    show SpRow.dot (inp.qmat.dropLast.getD k []) _ = _
    rw [getD_dropLast_of_lt inp.qmat k (by omega) []]
  · intro k hk
    rw [mulVec_getD]
    show SpRow.dot ((inp.reduced_A.take (nDataA inp)).getD k []) _ = _
    rw [getD_take_of_lt inp.reduced_A (nDataA inp) k hk []]
  · intro k hk
    rw [mulVec_getD]
    show SpRow.dot
      (((selA einp).map (fun d => SpRow.neg (einp.reduced_A.getD d []))).getD k []) _ = _
    rw [getD_map_of_lt (fun d => SpRow.neg (einp.reduced_A.getD d [])) (selA einp) k hk 0 []]
    exact dot_neg _ _
  · intro k hk
    rw [mulVec_getD]
    have hc := he.2.1
    show SpRow.dot (einp.cvec.dropLast.getD k []) _ = _
    rw [getD_dropLast_of_lt einp.cvec k (by omega) []]
  · intro k hk
    rw [mulVec_getD]
    show SpRow.dot
      (((selG einp).map (fun d => SpRow.neg (einp.reduced_A.getD d []))).getD k []) _ = _
    rw [getD_map_of_lt (fun d => SpRow.neg (einp.reduced_A.getD d [])) (selG einp) k hk 0 []]
    exact dot_neg _ _

theorem spec_C1_witness :
    OSQPValid wOSQP ∧ ECOSValid wECOS ∧
    (∀ r, ((mappingL wOSQP).mulVec (append1 wOSQP.total (fun _ => 2))).getD r 0 =
        fromScratchL wOSQP (append1 wOSQP.total (fun _ => 2)) r) :=
  ⟨by decide, by decide,
    (spec_C1 wOSQP (by decide) wECOS (by decide) (fun _ => 2)).1⟩

/-- C4: when the reduced-matrix iteration order diverges from ascending
structural row order, each selected reduced row is scattered to its true
structural row index and unselected rows are zero, in both the QP bound
maps (l, u) and the conic offset maps (b, h). -/
theorem spec_C4 (inp : OSQPInput) (hv : OSQPValid inp)
    (einp : ECOSInput) (he : ECOSValid einp) :
    (∀ d ∈ mappingRowsU inp,
        (mappingU inp).rows.getD (inp.indices_Alu.getD d 0) [] =
          SpRow.neg (inp.reduced_A.getD d [])) ∧
    (∀ r, (∀ d ∈ mappingRowsU inp, inp.indices_Alu.getD d 0 ≠ r) →
        (mappingU inp).rows.getD r [] = []) ∧
    (∀ d ∈ mappingRowsL inp,
        (mappingL inp).rows.getD (inp.indices_Alu.getD d 0) [] =
          SpRow.neg (inp.reduced_A.getD d [])) ∧
    (∀ r, (∀ d ∈ mappingRowsL inp, inp.indices_Alu.getD d 0 ≠ r) →
        (mappingL inp).rows.getD r [] = []) ∧
    (∀ d ∈ selB einp,
        (mappingB einp).rows.getD (einp.indices_AGbh.getD d 0) [] =
          einp.reduced_A.getD d []) ∧
    (∀ r, (∀ d ∈ selB einp, einp.indices_AGbh.getD d 0 ≠ r) →
        (mappingB einp).rows.getD r [] = []) ∧
    (∀ d ∈ selH einp,
        (mappingH einp).rows.getD (einp.indices_AGbh.getD d 0 - einp.n_eq) [] =
          einp.reduced_A.getD d []) ∧
    (∀ r, (∀ d ∈ selH einp, einp.indices_AGbh.getD d 0 - einp.n_eq ≠ r) →
        (mappingH einp).rows.getD r [] = []) := by
  refine ⟨?_, ?_, ?_, ?_, ?_, ?_, ?_, ?_⟩
  · intro d hd
    have hdm := (mem_mappingRowsU inp d).mp hd
    exact scatterRows_getD_of_mem _ _ _ _ (List.mem_map_of_mem _ hd)
      (luPairs_nodup_U inp hv) (hv.indexBound d hdm.2 hdm.1)
  · intro r hr
    apply scatterRows_getD_of_not_target
    intro p hp
    obtain ⟨d, hd, rfl⟩ := List.mem_map.mp hp
    exact hr d hd
  · intro d hd
    have hdm := (mem_mappingRowsL inp d).mp hd
    exact scatterRows_getD_of_mem _ _ _ _ (List.mem_map_of_mem _ hd)
      (luPairs_nodup_L inp hv) hdm.2.1
  · intro r hr
    apply scatterRows_getD_of_not_target
    intro p hp
    obtain ⟨d, hd, rfl⟩ := List.mem_map.mp hp
    exact hr d hd
  · intro d hd
    have hdm := (mem_selB einp d).mp hd
    have hmem : (einp.indices_AGbh.getD d 0 - 0, einp.reduced_A.getD d []) ∈
        bhPairs einp (selB einp) 0 := List.mem_map_of_mem _ hd
    rw [Nat.sub_zero] at hmem
    exact scatterRows_getD_of_mem _ _ _ _ hmem (bhPairs_nodup_B einp he) hdm.2.1
  · intro r hr
    apply scatterRows_getD_of_not_target
    intro p hp
    obtain ⟨d, hd, rfl⟩ := List.mem_map.mp hp
    have := hr d hd
    omega
  · intro d hd
    have hdm := (mem_selH einp d).mp hd
    have hbnd := he.boundE d hdm.1 hdm.2.2
    exact scatterRows_getD_of_mem _ _ _ _ (List.mem_map_of_mem _ hd)
      (bhPairs_nodup_H einp he) (by omega)
  · intro r hr
    apply scatterRows_getD_of_not_target
    intro p hp
    obtain ⟨d, hd, rfl⟩ := List.mem_map.mp hp
    exact hr d hd

theorem spec_C4_witness :
    OSQPValid wOSQP ∧ ECOSValid wECOS ∧
    (∀ d ∈ mappingRowsU wOSQP,
        (mappingU wOSQP).rows.getD (wOSQP.indices_Alu.getD d 0) [] =
          SpRow.neg (wOSQP.reduced_A.getD d [])) :=
  ⟨by decide, by decide, (spec_C4 wOSQP (by decide) wECOS (by decide)).1⟩

theorem nodup_getD_inj (ids : List String) (hnd : ids.Nodup) (i i2 : ℕ)
    (hi : i < ids.length) (hi2 : i2 < ids.length)
    (heq : ids.getD i "" = ids.getD i2 "") : i = i2 := by
  have h1 : ids.getD i "" = ids.get ⟨i, hi⟩ := by
    rw [List.getD_eq_getElem?_getD, List.getElem?_eq_getElem hi]
    rfl
  have h2 : ids.getD i2 "" = ids.get ⟨i2, hi2⟩ := by
    rw [List.getD_eq_getElem?_getD, List.getElem?_eq_getElem hi2]
    rfl
  have hget : ids.get ⟨i, hi⟩ = ids.get ⟨i2, hi2⟩ := by rw [← h1, ← h2, heq]
  have := (List.Nodup.get_inj_iff hnd).mp hget
  exact congrArg Fin.val this

/-- C2: the adjacency entry for a (canonical array, user parameter) pair
is true exactly when the affine map restricted to the column range of
that parameter holds a structurally non-zero entry, and the column range
taken from the id-to-column table excludes the appended constant column. -/
theorem spec_C2 (M : SpMat) (pcols : List ℕ) (total : ℕ) (j : ℕ)
    (hM : M.ncols = total + 1)
    (hmono : ∀ i < pcols.length - 1, pcols.getD i 0 ≤ pcols.getD (i+1) 0)
    (hlast : pcols.getD (pcols.length - 1) 0 = total)
    (hj : j < numParams pcols) :
    (adjacency M pcols j = true ↔
      M.hasEntryIn (pcols.getD j 0) (pcols.getD (j+1) 0)) ∧
    pcols.getD (j+1) 0 ≤ total ∧ pcols.getD (j+1) 0 < M.ncols := by
  have hbound : pcols.getD (j+1) 0 ≤ total := by
    have hgap := getD_le_of_mono pcols hmono (pcols.length - 1 - (j+1)) (j+1)
      (by unfold numParams at hj; omega)
    have harith : j + 1 + (pcols.length - 1 - (j+1)) = pcols.length - 1 := by
      unfold numParams at hj
      omega
    rw [harith] at hgap
    omega
  refine ⟨?_, hbound, by omega⟩
  unfold adjacency
  rw [decide_eq_true_eq]
  exact nnzIn_pos_iff M _ _

theorem spec_C2_witness :
    ((mappingP wOSQP).ncols = wOSQP.total + 1 ∧
      (∀ i < wOSQP.p_cols.length - 1,
        wOSQP.p_cols.getD i 0 ≤ wOSQP.p_cols.getD (i+1) 0) ∧
      wOSQP.p_cols.getD (wOSQP.p_cols.length - 1) 0 = wOSQP.total ∧
      0 < numParams wOSQP.p_cols) ∧
    ((adjacency (mappingP wOSQP) wOSQP.p_cols 0 = true ↔
      (mappingP wOSQP).hasEntryIn (wOSQP.p_cols.getD 0 0) (wOSQP.p_cols.getD 1 0)) ∧
      wOSQP.p_cols.getD 1 0 ≤ wOSQP.total ∧
      wOSQP.p_cols.getD 1 0 < (mappingP wOSQP).ncols) :=
  ⟨⟨rfl, by decide, by decide, by decide⟩,
    spec_C2 (mappingP wOSQP) wOSQP.p_cols wOSQP.total 0 rfl (by decide) (by decide) (by decide)⟩

/-- C3: the outdated set of a user parameter holds exactly the canonical
ids adjacent to it; an array whose non-constant columns are structurally
zero is flagged parameter-invariant and belongs to no outdated set. -/
theorem spec_C3 (maps : List SpMat) (ids : List String) (pcols : List ℕ) (total : ℕ)
    (hnd : ids.Nodup) (hlen : ids.length = maps.length)
    (hnc : ∀ M ∈ maps, M.ncols = total + 1)
    (hmono : ∀ i < pcols.length - 1, pcols.getD i 0 ≤ pcols.getD (i+1) 0)
    (hlast : pcols.getD (pcols.length - 1) 0 = total) :
    (∀ j, ∀ i < maps.length,
      (ids.getD i "" ∈ outdated maps ids pcols j ↔
        adjacency (maps.getD i ⟨[], 0⟩) pcols j = true)) ∧
    (∀ i < maps.length,
      (changes (maps.getD i ⟨[], 0⟩) = false ↔
        ¬ (maps.getD i ⟨[], 0⟩).hasEntryIn 0 total)) ∧
    (∀ i < maps.length, changes (maps.getD i ⟨[], 0⟩) = false →
      ∀ j < numParams pcols, ids.getD i "" ∉ outdated maps ids pcols j) := by
  have hmem : ∀ i, i < maps.length → maps.getD i ⟨[], 0⟩ ∈ maps := by
    intro i hi
    rw [List.getD_eq_getElem?_getD, List.getElem?_eq_getElem hi]
    exact List.getElem_mem hi
  have hpart1 : ∀ j, ∀ i < maps.length,
      (ids.getD i "" ∈ outdated maps ids pcols j ↔
        adjacency (maps.getD i ⟨[], 0⟩) pcols j = true) := by
    intro j i hi
    unfold outdated
    constructor
    · intro hin
      obtain ⟨i2, hi2, heq⟩ := List.mem_map.mp hin
      have hi2f := List.mem_filter.mp hi2
      have hi2r : i2 < maps.length := List.mem_range.mp hi2f.1
      have : i2 = i :=
        nodup_getD_inj ids hnd i2 i (by omega) (by omega) heq
      rw [← this]
      exact hi2f.2
    · intro hadj
      apply List.mem_map.mpr
      exact ⟨i, List.mem_filter.mpr ⟨List.mem_range.mpr hi, hadj⟩, rfl⟩
  have hpart2 : ∀ i < maps.length,
      (changes (maps.getD i ⟨[], 0⟩) = false ↔
        ¬ (maps.getD i ⟨[], 0⟩).hasEntryIn 0 total) := by
    intro i hi
    unfold changes
    rw [decide_eq_false_iff_not]
    rw [nnzIn_pos_iff]
    rw [hnc _ (hmem i hi)]
    simp
  refine ⟨hpart1, hpart2, ?_⟩
  intro i hi hch j hj hin
  have hadj := (hpart1 j i hi).mp hin
  unfold adjacency at hadj
  rw [decide_eq_true_eq, nnzIn_pos_iff] at hadj
  obtain ⟨r, hr, p, hp, h1, h2⟩ := hadj
  have hno := (hpart2 i hi).mp hch
  apply hno
  refine ⟨r, hr, p, hp, Nat.zero_le _, ?_⟩
  have hbound : pcols.getD (j+1) 0 ≤ total := by
    have hgap := getD_le_of_mono pcols hmono (pcols.length - 1 - (j+1)) (j+1)
      (by unfold numParams at hj; omega)
    have harith : j + 1 + (pcols.length - 1 - (j+1)) = pcols.length - 1 := by
      unfold numParams at hj
      omega
    rw [harith] at hgap
    omega
  omega

theorem spec_C3_witness :
    (osqpIds.Nodup ∧ osqpIds.length = (osqpMaps wOSQP).length ∧
      (∀ M ∈ osqpMaps wOSQP, M.ncols = wOSQP.total + 1) ∧
      (∀ i < wOSQP.p_cols.length - 1,
        wOSQP.p_cols.getD i 0 ≤ wOSQP.p_cols.getD (i+1) 0) ∧
      wOSQP.p_cols.getD (wOSQP.p_cols.length - 1) 0 = wOSQP.total) ∧
    (∀ i < (osqpMaps wOSQP).length,
      changes ((osqpMaps wOSQP).getD i ⟨[], 0⟩) = false →
      ∀ j < numParams wOSQP.p_cols,
        osqpIds.getD i "" ∉ outdated (osqpMaps wOSQP) osqpIds wOSQP.p_cols j) :=
  ⟨⟨by decide, by decide, by decide, by decide, by decide⟩,
    (spec_C3 (osqpMaps wOSQP) osqpIds wOSQP.p_cols wOSQP.total (by decide) (by decide)
      (by decide) (by decide) (by decide)).2.2⟩

theorem mulVec_length (M : SpMat) (v : ℕ → ℚ) : (M.mulVec v).length = M.rows.length :=
  List.length_map _ _

theorem mappingL_rows_length (inp : OSQPInput) : (mappingL inp).rows.length = inp.n_eq :=
  scatterRows_length _ _

theorem mappingU_rows_length (inp : OSQPInput) :
    (mappingU inp).rows.length = inp.n_eq + inp.n_ineq := scatterRows_length _ _

theorem canonL_length (inp : OSQPInput) (v : ℕ → ℚ) :
    (canonL inp v).length = inp.n_eq + inp.n_ineq := by
  unfold canonL
  rw [List.length_append, List.length_map, mulVec_length, mappingL_rows_length,
    List.length_replicate]

theorem canonL_finite_length (inp : OSQPInput) (v : ℕ → ℚ) :
    (((mappingL inp).mulVec v).map BVal.fin).length = inp.n_eq := by
  rw [List.length_map, mulVec_length, mappingL_rows_length]

/-- Sentinel rows of canon l: every row past the finite equality-bound
part is the signed negative-infinity sentinel. -/
theorem canonL_sentinel (inp : OSQPInput) (v : ℕ → ℚ) (r : ℕ)
    (h1 : inp.n_eq ≤ r) (h2 : r < inp.n_eq + inp.n_ineq) :
    (canonL inp v).getD r (BVal.fin 0) = BVal.negInf := by
  unfold canonL
  rw [List.getD_append_right _ _ _ _ (by rw [canonL_finite_length]; omega)]
  rw [canonL_finite_length]
  rw [List.getD_eq_getElem?_getD, List.getElem?_replicate]
  have : r - inp.n_eq < inp.n_ineq := by omega
  simp [this]

/-- The sentinel part of canon l is a constant independent of the
parameter assignment. -/
theorem canonL_drop (inp : OSQPInput) (v : ℕ → ℚ) :
    (canonL inp v).drop inp.n_eq = List.replicate inp.n_ineq BVal.negInf := by
  unfold canonL
  rw [← canonL_finite_length inp v, List.drop_left]

/-- C6: the one-sided bound vector l is emitted as the affinely mapped
finite part concatenated with a constant negative-infinity sentinel part;
the sentinel rows equal the sentinel for every parameter assignment and
lie outside the affine map (which has only n_eq rows), so no parameter
update ever touches them. -/
theorem spec_C6 (inp : OSQPInput) (θ θ2 : ℕ → ℚ) :
    (canonL inp (append1 inp.total θ)).length = inp.n_eq + inp.n_ineq ∧
    (∀ r, inp.n_eq ≤ r → r < inp.n_eq + inp.n_ineq →
      (canonL inp (append1 inp.total θ)).getD r (BVal.fin 0) = BVal.negInf) ∧
    ((canonL inp (append1 inp.total θ)).drop inp.n_eq =
      (canonL inp (append1 inp.total θ2)).drop inp.n_eq) ∧
    (mappingL inp).rows.length = inp.n_eq ∧
    canonL inp (append1 inp.total θ) =
      ((mappingL inp).mulVec (append1 inp.total θ)).map BVal.fin ++
        List.replicate inp.n_ineq BVal.negInf := by
  refine ⟨canonL_length inp _, fun r h1 h2 => canonL_sentinel inp _ r h1 h2, ?_,
    mappingL_rows_length inp, rfl⟩
  rw [canonL_drop, canonL_drop]

/-- C9: in the QP layout the emitted lower bound has length
n_eq + n_ineq with only its first n_eq rows affinely mapped and its last
n_ineq rows equal to negative infinity for every assignment, the upper
bound spans all rows affinely, and on equality rows the lower and upper
maps agree, so equalities are encoded as equal bounds and inequalities
only through the upper bound. -/
theorem spec_C9 (inp : OSQPInput) (hv : OSQPValid inp) (v : ℕ → ℚ) :
    (canonL inp v).length = inp.n_eq + inp.n_ineq ∧
    (∀ r < inp.n_eq, (canonL inp v).getD r (BVal.fin 0) =
      BVal.fin (((mappingL inp).mulVec v).getD r 0)) ∧
    (∀ r, inp.n_eq ≤ r → r < inp.n_eq + inp.n_ineq →
      (canonL inp v).getD r (BVal.fin 0) = BVal.negInf) ∧
    (canonU inp v).length = inp.n_eq + inp.n_ineq ∧
    (mappingL inp).rows.length = inp.n_eq ∧
    (∀ r < inp.n_eq,
      ((mappingL inp).mulVec v).getD r 0 = ((mappingU inp).mulVec v).getD r 0) := by
  refine ⟨canonL_length inp v, ?_, fun r h1 h2 => canonL_sentinel inp v r h1 h2,
    ?_, mappingL_rows_length inp, ?_⟩
  · intro r hr
    unfold canonL
    rw [List.getD_append _ _ _ _ (by rw [canonL_finite_length]; omega)]
    rw [getD_map_of_lt BVal.fin _ r (by rw [mulVec_length, mappingL_rows_length]; omega) 0]
  · unfold canonU
    rw [mulVec_length, mappingU_rows_length]
  · intro r hr
    rw [mappingL_eval inp hv v r, mappingU_eval inp hv v r]
    exact fromScratchL_eq_fromScratchU inp hv v r hr

theorem spec_C9_witness :
    OSQPValid wOSQP ∧
    (∀ r < wOSQP.n_eq,
      ((mappingL wOSQP).mulVec (append1 wOSQP.total (fun _ => 3))).getD r 0 =
        ((mappingU wOSQP).mulVec (append1 wOSQP.total (fun _ => 3))).getD r 0) :=
  ⟨by decide, (spec_C9 wOSQP (by decide) (append1 wOSQP.total (fun _ => 3))).2.2.2.2.2⟩

theorem ecosIndptr_foldl_length (orig sel : List ℕ) :
    ∀ acc : List ℕ,
      (sel.foldl
        (fun ip r =>
          match findCol orig r with
          | some c => bumpFrom ip (c + 1)
          | none => ip)
        acc).length = acc.length := by
  induction sel with
  | nil => intro acc; rfl
  | cons r rs ih =>
    intro acc
    rw [List.foldl_cons]
    cases hc : findCol orig r with
    | none => exact ih acc
    | some c => rw [ih (bumpFrom acc (c + 1)), bumpFrom_length]

theorem ecosIndptr_length (orig sel : List ℕ) :
    (ecosIndptr orig sel).length = orig.length := by
  unfold ecosIndptr
  rw [ecosIndptr_foldl_length]
  simp

/-- C5: the row-index and column-pointer arrays of every matrix-shaped
canonical encoding depend only on the problem structure: two runs of the
generation pass at any two parameter assignments produce identical
index and pointer arrays; column pointers are non-decreasing, and the
recomputed conic pointers represent a structurally empty column by equal
consecutive entries. -/
theorem spec_C5 (inp : OSQPInput) (hv : OSQPValid inp) (einp : ECOSInput)
    (θ θ2 : ℕ → ℚ) :
    ((runOSQP inp θ).indicesP = (runOSQP inp θ2).indicesP ∧
      (runOSQP inp θ).indptrP = (runOSQP inp θ2).indptrP ∧
      (runOSQP inp θ).indicesA = (runOSQP inp θ2).indicesA ∧
      (runOSQP inp θ).indptrA = (runOSQP inp θ2).indptrA ∧
      (runOSQP inp θ).maps = (runOSQP inp θ2).maps) ∧
    ((runECOS einp θ).indicesA = (runECOS einp θ2).indicesA ∧
      (runECOS einp θ).indptrA = (runECOS einp θ2).indptrA ∧
      (runECOS einp θ).indicesG = (runECOS einp θ2).indicesG ∧
      (runECOS einp θ).indptrG = (runECOS einp θ2).indptrG ∧
      (runECOS einp θ).maps = (runECOS einp θ2).maps) ∧
    (∀ k < (runOSQP inp θ).indptrP.length - 1,
      (runOSQP inp θ).indptrP.getD k 0 ≤ (runOSQP inp θ).indptrP.getD (k+1) 0) ∧
    (∀ k < (runOSQP inp θ).indptrA.length - 1,
      (runOSQP inp θ).indptrA.getD k 0 ≤ (runOSQP inp θ).indptrA.getD (k+1) 0) ∧
    (∀ k, k + 1 < (runECOS einp θ).indptrA.length →
      (runECOS einp θ).indptrA.getD k 0 ≤ (runECOS einp θ).indptrA.getD (k+1) 0) ∧
    (∀ k, k + 1 < (runECOS einp θ).indptrG.length →
      (runECOS einp θ).indptrG.getD k 0 ≤ (runECOS einp θ).indptrG.getD (k+1) 0) ∧
    (∀ c, c + 1 < (runECOS einp θ).indptrA.length →
      (selA einp).countP
        (fun r => findCol einp.indptr_AGbh.dropLast r == some c) = 0 →
      (runECOS einp θ).indptrA.getD (c+1) 0 = (runECOS einp θ).indptrA.getD c 0) ∧
    (∀ c, c + 1 < (runECOS einp θ).indptrG.length →
      (selG einp).countP
        (fun r => findCol einp.indptr_AGbh.dropLast r == some c) = 0 →
      (runECOS einp θ).indptrG.getD (c+1) 0 = (runECOS einp θ).indptrG.getD c 0) := by
  refine ⟨⟨rfl, rfl, rfl, rfl, rfl⟩, ⟨rfl, rfl, rfl, rfl, rfl⟩, ?_, ?_, ?_, ?_, ?_, ?_⟩
  · intro k hk
    exact hv.2.2.2.2.2.1 k hk
  · intro k hk
    have hk2 : k < (osqpIndptrA inp).length - 1 := hk
    show (osqpIndptrA inp).getD k 0 ≤ (osqpIndptrA inp).getD (k+1) 0
    unfold osqpIndptrA at hk2 ⊢
    have hlen : inp.indptr_Alu.dropLast.length = inp.indptr_Alu.length - 1 :=
      List.length_dropLast _
    rw [getD_dropLast_of_lt inp.indptr_Alu k (by omega) 0,
      getD_dropLast_of_lt inp.indptr_Alu (k+1) (by omega) 0]
    exact hv.2.2.2.2.1 k (by omega)
  · intro k hk
    show (indptrAe einp).getD k 0 ≤ (indptrAe einp).getD (k+1) 0
    have hlen : (indptrAe einp).length = einp.indptr_AGbh.dropLast.length :=
      ecosIndptr_length _ _
    exact ecosIndptr_mono _ _ k (by rw [← hlen]; exact hk)
  · intro k hk
    show (indptrGe einp).getD k 0 ≤ (indptrGe einp).getD (k+1) 0
    have hlen : (indptrGe einp).length = einp.indptr_AGbh.dropLast.length :=
      ecosIndptr_length _ _
    exact ecosIndptr_mono _ _ k (by rw [← hlen]; exact hk)
  · intro c hc hcount
    have hc2 : c + 1 < (ecosIndptr einp.indptr_AGbh.dropLast (selA einp)).length := hc
    rw [ecosIndptr_length] at hc2
    have hstep := ecosIndptr_step einp.indptr_AGbh.dropLast (selA einp) c hc2
    rw [hcount] at hstep
    show (ecosIndptr einp.indptr_AGbh.dropLast (selA einp)).getD (c + 1) 0 =
      (ecosIndptr einp.indptr_AGbh.dropLast (selA einp)).getD c 0
    omega
  · intro c hc hcount
    have hc2 : c + 1 < (ecosIndptr einp.indptr_AGbh.dropLast (selG einp)).length := hc
    rw [ecosIndptr_length] at hc2
    have hstep := ecosIndptr_step einp.indptr_AGbh.dropLast (selG einp) c hc2
    rw [hcount] at hstep
    show (ecosIndptr einp.indptr_AGbh.dropLast (selG einp)).getD (c + 1) 0 =
      (ecosIndptr einp.indptr_AGbh.dropLast (selG einp)).getD c 0
    omega

theorem spec_C5_witness :
    OSQPValid wOSQP ∧
    ((runOSQP wOSQP (fun _ => 4)).indicesP = (runOSQP wOSQP (fun _ => 7)).indicesP ∧
      (runOSQP wOSQP (fun _ => 4)).indptrP = (runOSQP wOSQP (fun _ => 7)).indptrP ∧
      (runOSQP wOSQP (fun _ => 4)).indicesA = (runOSQP wOSQP (fun _ => 7)).indicesA ∧
      (runOSQP wOSQP (fun _ => 4)).indptrA = (runOSQP wOSQP (fun _ => 7)).indptrA ∧
      (runOSQP wOSQP (fun _ => 4)).maps = (runOSQP wOSQP (fun _ => 7)).maps) :=
  ⟨by decide,
    (spec_C5 wOSQP (by decide) wECOS (fun _ => 4) (fun _ => 7)).1⟩

/-- C8: the canonicalization pass is deterministic: a repeated invocation
of generate_code on the same problem object (whose unset parameters were
assigned and stored by the first invocation) yields the same affine maps,
adjacency table, outdated sets and canonical values, and the structural
outputs are identical across all invocations regardless of the random
default draw. -/
theorem spec_C8 (inp : OSQPInput) (draw draw2 draw3 : ℕ → List ℚ)
    (s s3 : List (Option (List ℚ))) :
    (genOnce inp draw2 (genOnce inp draw s).1).2 = (genOnce inp draw s).2 ∧
    (genOnce inp draw2 (genOnce inp draw s).1).1 = (genOnce inp draw s).1 ∧
    (genOnce inp draw3 s3).2.maps = (genOnce inp draw s).2.maps ∧
    (genOnce inp draw3 s3).2.adj = (genOnce inp draw s).2.adj ∧
    (genOnce inp draw3 s3).2.outdatedSets = (genOnce inp draw s).2.outdatedSets ∧
    (genOnce inp draw3 s3).2.changesList = (genOnce inp draw s).2.changesList := by
  refine ⟨?_, ?_, rfl, rfl, rfl, rfl⟩
  · show runOSQP inp (flatParams (assignVals draw2 0 (assignVals draw 0 s))) =
      runOSQP inp (flatParams (assignVals draw 0 s))
    rw [assignVals_assigned]
  · show assignVals draw2 0 (assignVals draw 0 s) = assignVals draw 0 s
    exact assignVals_assigned draw draw2 0 s

/-- C7 counterexample: a generation request for a solver without a
defined role set raises after the template has already been copied into
code_dir (and after a pre-existing code_dir has been deleted), so the
failed pass does leave emitted artifacts. -/
theorem spec_C7_counterexample :
    (generateCodeOps true "GUROBI" true).2 = some GenError.unsupportedSolver ∧
    (generateCodeOps true "GUROBI" true).1 = [FsOp.rmtreeCodeDir, FsOp.copyTemplate] ∧
    execOps (generateCodeOps true "GUROBI" true).1 (some [FsOp.patchReadme]) =
      some [FsOp.copyTemplate] := by
  exact ⟨rfl, rfl, rfl⟩

/-- C7 amended: an unrecognized canonical id or an unsupported solver
identifier raises immediately; the failed pass performs no effect after
the failure point (in particular none of the core emission steps), but
the template copy into code_dir made before solver dispatch remains, so
the pass is not artifact-free on failure. -/
theorem spec_C7 (solverName : String) (hOS : solverName ≠ "OSQP")
    (hEC : solverName ≠ "ECOS") (codeDirExists compile : Bool) :
    (generateCodeOps codeDirExists solverName compile).2 =
      some GenError.unsupportedSolver ∧
    (generateCodeOps codeDirExists solverName compile).1 =
      (if codeDirExists then [FsOp.rmtreeCodeDir] else []) ++ [FsOp.copyTemplate] ∧
    (∀ pid, pid ∉ osqpIds → osqpRecognized pid = .error (.unknownCanonId "OSQP" pid)) ∧
    (∀ pid ∈ osqpIds, osqpRecognized pid = .ok ()) ∧
    (∀ pid, pid ∉ ecosIds → ecosRecognized pid = .error (.unknownCanonId "ECOS" pid)) ∧
    (∀ pid ∈ ecosIds, ecosRecognized pid = .ok ()) := by
  have hdisp : solverOps solverName = .error .unsupportedSolver := by
    unfold solverOps
    rw [if_neg hOS, if_neg hEC]
  refine ⟨?_, ?_, ?_, ?_, ?_, ?_⟩
  · unfold generateCodeOps
    rw [hdisp]
  · unfold generateCodeOps
    rw [hdisp]
  · intro pid hpid
    unfold osqpRecognized
    rw [if_neg]
    intro hc
    apply hpid
    unfold osqpIds
    rcases hc with h | h | h | h | h | h <;> simp [h]
  · intro pid hpid
    unfold osqpRecognized
    rw [if_pos]
    unfold osqpIds at hpid
    simp only [List.mem_cons, List.not_mem_nil, or_false] at hpid
    tauto
  · intro pid hpid
    unfold ecosRecognized
    rw [if_neg]
    intro hc
    apply hpid
    unfold ecosIds
    rcases hc with h | h | h | h | h | h <;> simp [h]
  · intro pid hpid
    unfold ecosRecognized
    rw [if_pos]
    unfold ecosIds at hpid
    simp only [List.mem_cons, List.not_mem_nil, or_false] at hpid
    tauto

theorem spec_C7_witness :
    ("GUROBI" ≠ "OSQP" ∧ "GUROBI" ≠ "ECOS") ∧
    (generateCodeOps false "GUROBI" false).2 = some GenError.unsupportedSolver :=
  ⟨⟨by decide, by decide⟩,
    (spec_C7 "GUROBI" (by decide) (by decide) false false).1⟩

/-- C10: when code_dir already exists as a directory it is deleted first
and, on the successful paths, the final contents of code_dir are a fresh
template copy followed by the branch and emission artifacts, independent
of whatever code_dir held before the call. -/
theorem spec_C10 (init : List FsOp) (compile : Bool) :
    execOps (generateCodeOps true "OSQP" compile).1 (some init) =
      some ([FsOp.copyTemplate, FsOp.osqpCodegen] ++ commonOps compile) ∧
    execOps (generateCodeOps true "ECOS" compile).1 (some init) =
      some ([FsOp.copyTemplate, FsOp.rmtreeSolverCode, FsOp.mkdirSolverCode,
        FsOp.copyEcosSources, FsOp.patchEcosFiles] ++ commonOps compile) ∧
    (generateCodeOps true "OSQP" compile).1.getD 0 FsOp.copyTemplate =
      FsOp.rmtreeCodeDir ∧
    execOps (generateCodeOps false "OSQP" compile).1 (some init) =
      execOps (generateCodeOps true "OSQP" compile).1 (some init) := by
  cases compile <;> exact ⟨rfl, rfl, rfl, rfl⟩

end Cvxpygen
